import Mathlib

set_option maxHeartbeats 1000000

namespace GPT2Transformer

/-- A 32-bit floating-point value, represented opaquely by its bit pattern.
`gpt2_transformer.py` never computes with floats: it only copies them between
node attributes and tensors (the dropout ratio, the weight entries), so an
opaque carrier is a faithful model. -/
structure F32 where
  bits : Nat
deriving DecidableEq, Repr

/-- A tensor payload: 64-bit integers (shape vectors) or 32-bit floats
(dropout ratios, weights).  Models the numpy array obtained through
`numpy_helper.to_array` / rebuilt through `numpy_helper.from_array`. -/
inductive TData where
  | i64 (xs : List Int)
  | f32 (xs : List F32)
deriving DecidableEq, Repr

/-- Number of elements of a payload. -/
def TData.len : TData → Nat
  | .i64 xs => xs.length
  | .f32 xs => xs.length

/-- A TensorProto: a named, shaped block of numeric data. -/
structure Tensor where
  name : String
  dims : List Nat
  data : TData
deriving DecidableEq, Repr

/-- An AttributeProto.  `type` is the wire type code (1 = float scalar,
4 = tensor); `ints` carries integer-list attributes (Transpose `perm`),
`f` the float-scalar payload, `t` the tensor payload.  Proto fields that
are absent carry their default; an absent tensor is modelled as `none`
(reading it fails like reading an empty default tensor does). -/
structure Attr where
  name : String
  type : Nat
  ints : List Int
  f : F32
  t : Option Tensor
deriving DecidableEq, Repr

/-- A NodeProto.  The field `attrs` models the protobuf field `attribute`
(that word is a Lean keyword and cannot be a field name). -/
structure Node where
  op_type : String
  name : String
  input : List String
  output : List String
  attrs : List Attr
deriving DecidableEq, Repr

/-- A graph input declaration (ValueInfoProto); only the name matters here. -/
structure ValueInfo where
  name : String
deriving DecidableEq, Repr

/-- The GraphProto: ordered nodes, initializers, and graph inputs. -/
structure Graph where
  node : List Node
  initializer : List Tensor
  input : List ValueInfo
deriving DecidableEq, Repr

/-- One operator-set-import entry. -/
structure OpsetId where
  domain : String
  version : Int
deriving DecidableEq, Repr

/-- The ModelProto: the graph plus its operator-set-import list. -/
structure Model where
  graph : Graph
  opset_import : List OpsetId
deriving DecidableEq, Repr

/-- Replace the node list of a model. -/
def Model.setNodes (m : Model) (ns : List Node) : Model :=
  { m with graph := { m.graph with node := ns } }

/-- Replace the initializer list of a model. -/
def Model.setInits (m : Model) (ts : List Tensor) : Model :=
  { m with graph := { m.graph with initializer := ts } }

/-- Replace the graph-input list of a model. -/
def Model.setInputs (m : Model) (vs : List ValueInfo) : Model :=
  { m with graph := { m.graph with input := vs } }

/-- The decimal digit characters, for rendering the numeric suffix of
generated names (`'%d' % i`). -/
def digitChar : Nat → Char
  | 0 => '0' | 1 => '1' | 2 => '2' | 3 => '3' | 4 => '4'
  | 5 => '5' | 6 => '6' | 7 => '7' | 8 => '8' | _ => '9'

/-- Decimal digit list of a natural number, most significant first; the
fuel argument makes the recursion structural (one unit per digit, so any
fuel above the digit count is enough). -/
def decDigitsAux : Nat → Nat → List Char
  | 0, _ => []
  | fuel + 1, n =>
    if n < 10 then [digitChar n]
    else decDigitsAux fuel (n / 10) ++ [digitChar (n % 10)]

/-- Decimal rendering of a natural number, modelling Python `'%d' % n`. -/
def natStr (n : Nat) : String := ⟨decDigitsAux (n + 1) n⟩

/-- All (node, matching output slot) occurrences: for `find_input_node`, a node
is listed once per output slot equal to `arg`, exactly as the Python double
loop appends it. -/
def outputOccurrences (m : Model) (arg : String) : List Node :=
  m.graph.node.foldr
    (fun n acc => ((n.output.filter (fun s => s = arg)).map (fun _ => n)) ++ acc) []

/-- All (node, matching input slot) occurrences, for `find_output_node`. -/
def inputOccurrences (m : Model) (arg : String) : List Node :=
  m.graph.node.foldr
    (fun n acc => ((n.input.filter (fun s => s = arg)).map (fun _ => n)) ++ acc) []

/-- `find_input_node`: the unique producer of value `arg`, or `none` when zero
or several (node, output-slot) pairs match. -/
def find_input_node (m : Model) (arg : String) : Option Node :=
  match outputOccurrences m arg with
  | [n] => some n
  | _ => none

/-- `find_output_node`: the unique consumer of value `arg`, or `none` when
zero or several (node, input-slot) pairs match. -/
def find_output_node (m : Model) (arg : String) : Option Node :=
  match inputOccurrences m arg with
  | [n] => some n
  | _ => none

/-- `find_initializer`: first initializer with the given name. -/
def find_initializer (m : Model) (arg : String) : Option Tensor :=
  m.graph.initializer.find? (fun t => t.name = arg)

/-- `find_input`: first graph input with the given name. -/
def find_input (m : Model) (arg : String) : Option ValueInfo :=
  m.graph.input.find? (fun v => v.name = arg)

/-- First position of a value-equal element (protobuf `==` is value
equality), scanning from the front. -/
def firstIdxOf (target : Node) : List Node → Option Nat
  | [] => none
  | x :: xs => if x = target then some 0 else (firstIdxOf target xs).map (· + 1)

/-- `get_node_index`: position of the first node value-equal to `node`. -/
def get_node_index (m : Model) (node : Node) : Option Nat :=
  firstIdxOf node m.graph.node

/-- `find_weight_index`: position of the first initializer with this name. -/
def find_weight_index (m : Model) (name : String) : Option Nat :=
  (m.graph.initializer.findIdx? (fun w => w.name = name))

/-- `find_input_index`: position of the first graph input with this name. -/
def find_input_index (m : Model) (name : String) : Option Nat :=
  (m.graph.input.findIdx? (fun w => w.name = name))

/-- `find_all_fused_nodes`: breadth-first ancestor collection starting from
`concat_node`, stopping descent (but not inclusion) at `Shape` nodes.  The
Python loop has no visited set and diverges on a cyclic graph; `fuel` bounds
the number of queue pops, and exhaustion is modelled as failure. -/
def fusedNodesLoop (m : Model) : Nat → List Node → List Node → Option (List Node)
  | 0, _, _ => none
  | _ + 1, acc, [] => some acc
  | fuel + 1, acc, n :: queue =>
    if n.op_type = "Shape" then
      fusedNodesLoop m fuel (acc ++ [n]) queue
    else
      fusedNodesLoop m fuel (acc ++ [n])
        (queue ++ n.input.filterMap (find_input_node m))

/-- Fuel bound for the breadth-first walk: the number of root-to-node paths in
an acyclic graph is below `(N + 2) ^ (N + 2)`. -/
def fusedFuel (m : Model) : Nat :=
  (m.graph.node.length + 2) ^ (m.graph.node.length + 2)

/-- `find_all_fused_nodes` with the standard fuel. -/
def find_all_fused_nodes (m : Model) (concat_node : Node) : Option (List Node) :=
  fusedNodesLoop m (fusedFuel m) [] [concat_node]

/-- The Constant node built by `add_const` when a tensor value is supplied:
attribute named `value` with wire type 4. -/
def constNodeT (name output : String) (t : Tensor) : Node :=
  ⟨"Constant", name, [], [output], [⟨"value", 4, [], ⟨0⟩, some t⟩]⟩

/-- The Constant node built by `add_const` when a bare float is supplied:
attribute named `value` with wire type 1. -/
def constNodeF (name output : String) (fv : F32) : Node :=
  ⟨"Constant", name, [], [output], [⟨"value", 1, [], fv, none⟩]⟩

/-- `add_const` (tensor case): append the Constant node to the graph. -/
def addConstT (m : Model) (name output : String) (t : Tensor) : Model :=
  m.setNodes (m.graph.node ++ [constNodeT name output t])

/-- `replace_input_arg`: rewrite every node input equal to `arg` into
`new_arg`, across the whole graph. -/
def replace_input_arg (m : Model) (arg new_arg : String) : Model :=
  m.setNodes (m.graph.node.map (fun n =>
    { n with input := n.input.map (fun s => if s = arg then new_arg else s) }))

/-- One `del model.graph.node[i]`-style deletion: out-of-range is an error. -/
def delIdx {α : Type} (xs : List α) (q : Nat) : Option (List α) :=
  if q < xs.length then some (xs.eraseIdx q) else none

/-- Delete a batch of positions, in list order (callers sort descending). -/
def delMany {α : Type} : List α → List Nat → Option (List α)
  | xs, [] => some xs
  | xs, q :: qs =>
    match delIdx xs q with
    | none => none
    | some xs' => delMany xs' qs

/-- Python `list.sort(reverse=True)` on naturals: stable descending sort. -/
def sortDesc (l : List Nat) : List Nat := l.insertionSort (fun a b => a ≥ b)

/-- `add_name`: name each node `"<op_type>_<i>"` with one global counter `i`
running over the whole node sequence. -/
def addNameList : Nat → List Node → List Node
  | _, [] => []
  | i, n :: ns =>
    { n with name := n.op_type ++ "_" ++ natStr i } :: addNameList (i + 1) ns

/-- The Name Assignment Pass over a model. -/
def add_name (m : Model) : Model :=
  m.setNodes (addNameList 0 m.graph.node)

/-- Fold a fallible step over a list, stopping at the first failure (each
Python loop body that can raise is such a step). -/
def optFoldl {σ α : Type} (f : σ → α → Option σ) : σ → List α → Option σ
  | s, [] => some s
  | s, x :: xs =>
    match f s x with
    | none => none
    | some s' => optFoldl f s' xs

/-- Map a fallible function over a list, failing as soon as one element does
(the Python loops crash at the first failing element). -/
def seqMap {α β : Type} (f : α → Option β) : List α → Option (List β)
  | [] => some []
  | x :: xs =>
    match f x with
    | none => none
    | some y =>
      match seqMap f xs with
      | none => none
      | some ys => some (y :: ys)

/-- `numpy_helper.to_array`: the dims and the flat payload; fails when the
element count does not match the declared dims. -/
def toArray (t : Tensor) : Option (List Nat × TData) :=
  if t.data.len = t.dims.foldl (fun a b => a * b) 1 then some (t.dims, t.data)
  else none

/-- `np.asscalar(numpy_helper.to_array(t))` for an int64 tensor: the unique
element; fails unless the tensor holds exactly one 64-bit integer. -/
def toScalarI (t : Tensor) : Option Int :=
  match toArray t with
  | some (_, .i64 [x]) => some x
  | _ => none

/-- State threaded through the `process_concat` scan: the insertion-ordered
map reshape-position → folded shape, and the node positions scheduled for
deletion (appended per candidate, duplicates kept). -/
structure ConcatState where
  new_nodes : List (Nat × List Int)
  delete_nodes : List Nat
deriving DecidableEq, Repr

/-- Insertion-ordered dict update: overwrite in place when the key exists,
append otherwise (Python dict semantics for `new_nodes[idx] = shape`). -/
def updAssoc (l : List (Nat × List Int)) (k : Nat) (v : List Int) :
    List (Nat × List Int) :=
  if l.any (fun p => p.1 = k) then
    l.map (fun p => if p.1 = k then (k, v) else p)
  else l ++ [(k, v)]

/-- The `skip` flag of `process_concat` (lines 88-94): true when some
producer of a Concat input is not an Unsqueeze. -/
def skipFlag (ps : List Node) : Bool :=
  ps.any (fun p => if p.op_type = "Unsqueeze" then false else true)

/-- The producer check of `process_concat` on one Concat node: `none` models
the AttributeError raised when some input has no unique producer; otherwise
the computed skip flag. -/
def concatSkip (m : Model) (c : Node) : Option Bool :=
  match seqMap (find_input_node m) c.input with
  | none => none
  | some ps => some (skipFlag ps)

/-- Per-dimension value resolution (lines 102-114): the producer of the
Unsqueeze's single input contributes its scalar payload when it is a
Constant (asserting a single `value` tensor attribute), and the literal
placeholder 0 otherwise. -/
def resolveDim (m : Model) (input_node : Node) : Option Int :=
  match input_node.input with
  | [] => none
  | i0 :: _ =>
    match find_input_node m i0 with
    | none => none
    | some const_input =>
      if const_input.op_type = "Constant" then
        match const_input.attrs with
        | [a] =>
          if a.name = "value" then
            if a.type = 4 then
              match a.t with
              | some t => toScalarI t
              | none => none
            else none
          else none
        | _ => none
      else some 0

/-- One iteration of the `process_concat` scan loop over one graph node. -/
def processConcatStep (m : Model) (s : ConcatState) (node : Node) :
    Option ConcatState :=
  if node.op_type = "Concat" then
    match seqMap (find_input_node m) node.input with
    | none => none
    | some input_nodes =>
      if skipFlag input_nodes then some s
      else
        match seqMap (resolveDim m) input_nodes with
        | none => none
        | some shape =>
          match node.output with
          | [] => none
          | out0 :: _ =>
            match find_output_node m out0 with
            | none => some s
            | some reshape_node =>
              if reshape_node.op_type = "Reshape" then
                match get_node_index m reshape_node with
                | none => none
                | some ri =>
                  match find_all_fused_nodes m node with
                  | none => none
                  | some fuse =>
                    match seqMap (fun n => get_node_index m n) fuse with
                    | none => none
                    | some idxs =>
                      some ⟨updAssoc s.new_nodes ri shape,
                            s.delete_nodes ++ idxs⟩
              else none
  else some s

/-- The scan phase of `process_concat` (lines 82-125). -/
def processConcatScan (m : Model) : Option ConcatState :=
  optFoldl (processConcatStep m) ⟨[], []⟩ m.graph.node

/-- The insertion phase (lines 127-134): for each recorded reshape position,
append a `concat_shape_node_<k>` Constant and rewrite the reshape's second
input to `concat_shape_<k>`. -/
def insertShapes : Model → Nat → List (Nat × List Int) → Option Model
  | m, _, [] => some m
  | m, k, (ri, shape) :: rest =>
    let m' := addConstT m ("concat_shape_node_" ++ natStr k)
      ("concat_shape_" ++ natStr k) ⟨"", [shape.length], .i64 shape⟩
    match m'.graph.node.get? ri with
    | none => none
    | some rn =>
      match rn.input with
      | a :: _ :: restIn =>
        insertShapes
          (m'.setNodes (m'.graph.node.set ri
            { rn with input := a :: ("concat_shape_" ++ natStr k) :: restIn }))
          (k + 1) rest
      | _ => none

/-- The Dynamic-Shape Folding pass `process_concat`: scan, insert the folded
shape constants, then delete the scheduled positions sorted descending. -/
def process_concat (m : Model) : Option Model :=
  match processConcatScan m with
  | none => none
  | some s =>
    match insertShapes m 0 s.new_nodes with
    | none => none
    | some m2 =>
      match delMany m2.graph.node (sortDesc s.delete_nodes) with
      | none => none
      | some ns => some (m2.setNodes ns)

/-- Flat row-major transpose: entry (i, j) of the c×r result is entry (j, i)
of the r×c input. -/
def transFlat {α : Type} [Inhabited α] (r c : Nat) (xs : List α) : List α :=
  ((List.range c).map (fun i =>
    (List.range r).map (fun j => xs.getD (j * c + i) default))).flatten

instance : Inhabited F32 := ⟨⟨0⟩⟩

/-- `weight.transpose([1, 0])` on the flat payload of an r×c tensor. -/
def tdataTranspose (r c : Nat) : TData → TData
  | .i64 xs => .i64 (transFlat r c xs)
  | .f32 xs => .f32 (transFlat r c xs)

/-- Phase 1 of `fix_transpose` (lines 165-181), one node: record an
initializer-fed Transpose unless the weight has other consumers; assert the
permutation is exactly `[1, 0]`. -/
def fixTransposeScanStep (m : Model) (acc : List (Nat × Tensor)) (node : Node) :
    Option (List (Nat × Tensor)) :=
  if node.op_type = "Transpose" then
    match node.input with
    | [] => none
    | i0 :: _ =>
      match find_initializer m i0 with
      | none => some acc
      | some weight =>
        if (inputOccurrences m weight.name).length > 1 then some acc
        else
          match node.attrs with
          | [] => none
          | pa :: _ =>
            if pa.name = "perm" then
              if pa.ints = [1, 0] then
                match get_node_index m node with
                | none => none
                | some idx => some (acc ++ [(idx, weight)])
              else none
            else none
  else some acc

/-- Phase 2 of `fix_transpose` (lines 182-189), one recorded pair: build the
transposed initializer `<name>_transposed` (asserting the weight is 2-D),
append it, and re-point all references to the Transpose's output. -/
def fixTransposeFold (mm : Model) (t : Nat × Tensor) : Option Model :=
  match mm.graph.node.get? t.1 with
  | none => none
  | some node =>
    match toArray t.2 with
    | none => none
    | some (dims, data) =>
      match dims with
      | [r, c] =>
        match node.output with
        | [] => none
        | o0 :: _ =>
          some (replace_input_arg
            (mm.setInits (mm.graph.initializer ++
              [⟨t.2.name ++ "_transposed", [c, r], tdataTranspose r c data⟩]))
            o0 (t.2.name ++ "_transposed"))
      | _ => none

/-- `transpose.sort(reverse=True)` on (index, weight) pairs: tuples compare
by index; an index tie falls through to comparing protobuf messages, which
raises, so only pairwise-distinct indices sort successfully. -/
def sortRecsDesc (l : List (Nat × Tensor)) : Option (List (Nat × Tensor)) :=
  if (l.map Prod.fst).Nodup then
    some (l.insertionSort (fun a b => a.1 ≥ b.1))
  else none

/-- The Matrix-Transpose Folding pass `fix_transpose` (lines 164-209): scan,
fold each recorded weight, delete the Transpose nodes descending, then clean
up dead original weights from the graph inputs and the initializers. -/
def fix_transpose (m : Model) : Option Model :=
  match optFoldl (fixTransposeScanStep m) [] m.graph.node with
  | none => none
  | some recs =>
    match optFoldl fixTransposeFold m recs with
    | none => none
    | some m2 =>
      match sortRecsDesc recs with
      | none => none
      | some sorted =>
        match delMany m2.graph.node (sorted.map Prod.fst) with
        | none => none
        | some ns =>
          let m3 := m2.setNodes ns
          let dead := sorted.filter (fun t => (find_output_node m3 t.2.name).isNone)
          match seqMap (fun t => find_weight_index m3 t.2.name) dead with
          | none => none
          | some old_ws =>
            match seqMap (fun t => find_input_index m3 t.2.name) dead with
            | none => none
            | some old_graph_inputs =>
              match delMany m3.graph.input (sortDesc old_graph_inputs) with
              | none => none
              | some ins =>
                match delMany m3.graph.initializer (sortDesc old_ws) with
                | none => none
                | some inits => some ((m3.setInputs ins).setInits inits)

/-- Number of Dropout nodes in a list. -/
def countDropout (ns : List Node) : Nat :=
  (ns.filter (fun n => n.op_type = "Dropout")).length

/-- The TrainableDropout node the k-th Dropout is upgraded to: data input
`x` (the Dropout's first input), then the ratio constant's output; the
output list is the Dropout's, verbatim. -/
def mkTrainable (k : Nat) (d : Node) (x : String) : Node :=
  ⟨"TrainableDropout", "TrainableDropout_" ++ natStr k,
   [x, "dropout_node_ratio_" ++ natStr k], d.output, []⟩

/-- The `dropout_node_ratio_<k>` Constant: a single-element 32-bit float
tensor holding the Dropout's ratio attribute. -/
def mkRatioNode (k : Nat) (fv : F32) : Node :=
  constNodeT ("dropout_node_ratio_" ++ natStr k)
    ("dropout_node_ratio_" ++ natStr k) ⟨"", [1], .f32 [fv]⟩

/-- The `process_dropout` loop (lines 214-228).  The Python `for` iterates
the repeated field while the body appends to it, so the appended
TrainableDropout and Constant nodes are themselves visited (and skipped,
not being Dropout nodes); this is modelled by an index loop over the growing
list.  Each Dropout step appends two nodes, so the loop runs at most
`length + 2 * countDropout` iterations; `fuel` covers that and exhaustion is
unreachable from `process_dropout`'s initial fuel. -/
def dropLoop : Nat → List Node → Nat → Nat → List Nat → Option (List Node × List Nat)
  | 0, _, _, _, _ => none
  | fuel + 1, nodes, i, k, dels =>
    match nodes.get? i with
    | none => some (nodes, dels)
    | some node =>
      if node.op_type = "Dropout" then
        match node.input, node.attrs with
        | x :: _, a :: _ =>
          let nodes' := nodes ++ [mkTrainable k node x, mkRatioNode k a.f]
          match firstIdxOf node nodes' with
          | none => none
          | some di => dropLoop fuel nodes' (i + 1) (k + 1) (dels ++ [di])
        | _, _ => none
      else dropLoop fuel nodes (i + 1) k dels

/-- The Dropout Upgrade pass `process_dropout` (lines 211-231): upgrade each
Dropout in encounter order, then delete the recorded positions sorted
descending. -/
def process_dropout (m : Model) : Option Model :=
  match dropLoop (m.graph.node.length + 2 * countDropout m.graph.node + 1)
      m.graph.node 0 0 [] with
  | none => none
  | some (nodes', dels) =>
    match delMany nodes' (sortDesc dels) with
    | none => none
    | some ns => some (m.setNodes ns)

/-- `model.opset_import[0].version = 11`: set the first operator-set entry's
version to 11; indexing an empty list raises. -/
def stampOpset (m : Model) : Option Model :=
  match m.opset_import with
  | [] => none
  | o :: os => some { m with opset_import := { o with version := 11 } :: os }

/-- The orchestrator `transform_gpt2` (lines 248-262): Name Assignment, then
Dynamic-Shape Folding, Matrix-Transpose Folding, Dropout Upgrade, then the
version stamp. -/
def transform_gpt2 (m : Model) : Option Model :=
  match process_concat (add_name m) with
  | none => none
  | some m2 =>
    match fix_transpose m2 with
    | none => none
    | some m3 =>
      match process_dropout m3 with
      | none => none
      | some m4 => stampOpset m4

/-- A Constant node holding a single int64 scalar, as in the exported
shape-computation chains. -/
def constI (name out : String) (v : Int) : Node :=
  ⟨"Constant", name, [], [out], [⟨"value", 4, [], ⟨0⟩, some ⟨"", [], .i64 [v]⟩⟩]⟩

/-- Scenario for the shape fold: a Concat fed by three Unsqueeze nodes whose
inputs are produced by Constants holding 2, 0, 768, feeding a Reshape. -/
def mC2 : Model :=
  ⟨⟨[constI "c1" "c1v" 2,
     constI "c2" "c2v" 0,
     constI "c3" "c3v" 768,
     ⟨"Unsqueeze", "u1", ["c1v"], ["u1v"], []⟩,
     ⟨"Unsqueeze", "u2", ["c2v"], ["u2v"], []⟩,
     ⟨"Unsqueeze", "u3", ["c3v"], ["u3v"], []⟩,
     ⟨"Concat", "cc", ["u1v", "u2v", "u3v"], ["ccv"], []⟩,
     ⟨"Reshape", "rs", ["x", "ccv"], ["y"], []⟩],
    [], []⟩, [⟨"", 9⟩]⟩

/-- Scenario for the shape fold with a dynamic middle dimension: the second
Unsqueeze is fed by a Shape→Gather chain instead of a Constant, so its
dimension resolves to the placeholder 0. -/
def mC2b : Model :=
  ⟨⟨[⟨"Shape", "sh", ["x"], ["sv"], []⟩,
     ⟨"Gather", "ga", ["sv", "gi"], ["gv"], []⟩,
     constI "c1" "c1v" 2,
     constI "c3" "c3v" 768,
     ⟨"Unsqueeze", "u1", ["c1v"], ["u1v"], []⟩,
     ⟨"Unsqueeze", "u2", ["gv"], ["u2v"], []⟩,
     ⟨"Unsqueeze", "u3", ["c3v"], ["u3v"], []⟩,
     ⟨"Concat", "cc", ["u1v", "u2v", "u3v"], ["ccv"], []⟩,
     ⟨"Reshape", "rs", ["x2", "ccv"], ["y"], []⟩],
    [], []⟩, [⟨"", 9⟩]⟩

/-- Scenario for the transpose fold: a 4×3 initializer weight `W` feeding a
Transpose with permutation [1, 0], whose output a MatMul consumes; `W` is
also declared as a graph input, as initializers are in exported graphs. -/
def mC3 (w : List F32) : Model :=
  ⟨⟨[⟨"Transpose", "t", ["W"], ["Wt"], [⟨"perm", 7, [1, 0], ⟨0⟩, none⟩]⟩,
     ⟨"MatMul", "mm", ["X", "Wt"], ["y"], []⟩],
    [⟨"W", [4, 3], .f32 w⟩],
    [⟨"X"⟩, ⟨"W"⟩]⟩, [⟨"", 9⟩]⟩

/-- Scenario with two Concat candidates: candidate `ca` has no consumer at
all, candidate `cb` feeds a Reshape. -/
def mC7 : Model :=
  ⟨⟨[constI "a1" "a1v" 5,
     ⟨"Unsqueeze", "ua", ["a1v"], ["uav"], []⟩,
     ⟨"Concat", "ca", ["uav"], ["cav"], []⟩,
     constI "b1" "b1v" 7,
     ⟨"Unsqueeze", "ub", ["b1v"], ["ubv"], []⟩,
     ⟨"Concat", "cb", ["ubv"], ["cbv"], []⟩,
     ⟨"Reshape", "rb", ["x", "cbv"], ["y"], []⟩],
    [], []⟩, [⟨"", 9⟩]⟩

/-- Scenario where the Concat's unique consumer is a Gather, not a Reshape. -/
def mC7bad : Model :=
  ⟨⟨[constI "c1" "c1v" 5,
     ⟨"Unsqueeze", "u1", ["c1v"], ["u1v"], []⟩,
     ⟨"Concat", "cc", ["u1v"], ["ccv"], []⟩,
     ⟨"Gather", "gg", ["ccv"], ["z"], []⟩],
    [], []⟩, [⟨"", 9⟩]⟩

/-- Scenario where one Constant feeds both Unsqueeze inputs of the same
Concat, so the ancestor walk collects it twice. -/
def mC6bad : Model :=
  ⟨⟨[constI "c0" "c0v" 5,
     ⟨"Unsqueeze", "u1", ["c0v"], ["u1v"], []⟩,
     ⟨"Unsqueeze", "u2", ["c0v"], ["u2v"], []⟩,
     ⟨"Concat", "cc", ["u1v", "u2v"], ["ccv"], []⟩,
     ⟨"Reshape", "rs", ["x", "ccv"], ["y"], []⟩],
    [], []⟩, [⟨"", 9⟩]⟩

/-- Scenario with pairwise-distinct collected ancestors: each Unsqueeze has
its own Constant. -/
def mC6ok : Model :=
  ⟨⟨[constI "c1" "c1v" 5,
     constI "c2" "c2v" 7,
     ⟨"Unsqueeze", "u1", ["c1v"], ["u1v"], []⟩,
     ⟨"Unsqueeze", "u2", ["c2v"], ["u2v"], []⟩,
     ⟨"Concat", "cc", ["u1v", "u2v"], ["ccv"], []⟩,
     ⟨"Reshape", "rs", ["x", "ccv"], ["y"], []⟩],
    [], []⟩, [⟨"", 9⟩]⟩

/-- Scenario for the permutation guard, parametrized by the Transpose's
`perm` attribute: a 2×2 initializer weight consumed only by the Transpose. -/
def mC9gen (p : List Int) : Model :=
  ⟨⟨[⟨"Transpose", "t", ["W"], ["Wt"], [⟨"perm", 7, p, ⟨0⟩, none⟩]⟩,
     ⟨"MatMul", "mm", ["X", "Wt"], ["y"], []⟩],
    [⟨"W", [2, 2], .f32 [⟨1⟩, ⟨2⟩, ⟨3⟩, ⟨4⟩]⟩],
    [⟨"X"⟩, ⟨"W"⟩]⟩, [⟨"", 9⟩]⟩

/-- Scenario where the weight of a non-[1,0] Transpose is also consumed
directly by a second node (an Add). -/
def mC9b : Model :=
  ⟨⟨[⟨"Transpose", "t", ["W"], ["Wt"], [⟨"perm", 7, [0, 1], ⟨0⟩, none⟩]⟩,
     ⟨"Add", "ad", ["W", "q"], ["y2"], []⟩,
     ⟨"MatMul", "mm", ["X", "Wt"], ["y"], []⟩],
    [⟨"W", [2, 2], .f32 [⟨1⟩, ⟨2⟩, ⟨3⟩, ⟨4⟩]⟩],
    [⟨"X"⟩, ⟨"W"⟩]⟩, [⟨"", 9⟩]⟩

/-- Scenario for the clean-up where the folded weight `V` is NOT among the
graph inputs. -/
def mC8bad : Model :=
  ⟨⟨[⟨"Transpose", "t", ["V"], ["Vt"], [⟨"perm", 7, [1, 0], ⟨0⟩, none⟩]⟩,
     ⟨"Mul", "mu", ["Vt", "z"], ["y"], []⟩],
    [⟨"V", [1, 2], .f32 [⟨10⟩, ⟨20⟩]⟩],
    [⟨"X"⟩]⟩, [⟨"", 9⟩]⟩

/-- The same scenario with `V` present among the graph inputs. -/
def mC8ok : Model :=
  ⟨⟨[⟨"Transpose", "t", ["V"], ["Vt"], [⟨"perm", 7, [1, 0], ⟨0⟩, none⟩]⟩,
     ⟨"Mul", "mu", ["Vt", "z"], ["y"], []⟩],
    [⟨"V", [1, 2], .f32 [⟨10⟩, ⟨20⟩]⟩],
    [⟨"X"⟩, ⟨"V"⟩]⟩, [⟨"", 9⟩]⟩

/-- A one-Dropout model used to instantiate the dropout-upgrade theorem. -/
def mC4w : Model :=
  ⟨⟨[⟨"Dropout", "d0", ["x"], ["y"], [⟨"ratio", 1, [], ⟨42⟩, none⟩]⟩],
    [], []⟩, [⟨"", 9⟩]⟩

/-- A model whose Concat input `z` is produced by no node. -/
def mC10w : Model :=
  ⟨⟨[⟨"Concat", "cc", ["z"], ["ccv"], []⟩], [], []⟩, [⟨"", 9⟩]⟩

/-- An empty graph with one opset entry of version 9. -/
def mTiny : Model := ⟨⟨[], [], []⟩, [⟨"", 9⟩]⟩

/-- A one-node model for instantiating the naming theorem. -/
def mC5w : Model := ⟨⟨[⟨"Relu", "", ["a"], ["b"], []⟩], [], []⟩, []⟩

/-- Claim C2: for a graph containing a Concat fed by three Unsqueeze nodes
whose single inputs are produced by Constant nodes holding the scalars 2, 0,
768, with the Concat's output uniquely consumed by a Reshape, after
`process_concat` the Reshape's second input references a newly added Constant
node whose tensor payload is the 64-bit integer sequence [2, 0, 768] (in
Concat input order, a non-Constant-fed dimension resolving to the literal 0,
as the second conjunct's Shape→Gather-fed middle dimension shows), and every
node of the original shape-computation chain feeding the Concat is absent
from the graph. -/
theorem claim_C2_shape_fold :
    process_concat mC2 =
      some ⟨⟨[⟨"Reshape", "rs", ["x", "concat_shape_0"], ["y"], []⟩,
          constNodeT "concat_shape_node_0" "concat_shape_0" ⟨"", [3], .i64 [2, 0, 768]⟩],
        [], []⟩, [⟨"", 9⟩]⟩ ∧
    process_concat mC2b =
      some ⟨⟨[⟨"Reshape", "rs", ["x2", "concat_shape_0"], ["y"], []⟩,
          constNodeT "concat_shape_node_0" "concat_shape_0" ⟨"", [3], .i64 [2, 0, 768]⟩],
        [], []⟩, [⟨"", 9⟩]⟩ :=
  ⟨rfl, rfl⟩

/-- Claim C3: a 4×3 initializer weight W (arbitrary entries) feeding a
Transpose with permutation [1, 0], referenced by no other node, yields under
`fix_transpose` a graph with no Transpose node, a new 3×4 initializer named
`W_transposed` holding the mathematical transpose of W's data, and the
consumer rewired from the Transpose's output to `W_transposed`. -/
theorem claim_C3_transpose_fold (a b c d e f g h i j k l : F32) :
    fix_transpose (mC3 [a, b, c, d, e, f, g, h, i, j, k, l]) =
      some ⟨⟨[⟨"MatMul", "mm", ["X", "W_transposed"], ["y"], []⟩],
        [⟨"W_transposed", [3, 4], .f32 [a, d, g, j, b, e, h, k, c, f, i, l]⟩],
        [⟨"X"⟩]⟩, [⟨"", 9⟩]⟩ :=
  rfl

/-- Witness for C3 at the concrete 4×3 weight with entries 1..12. -/
theorem claim_C3_witness :
    fix_transpose (mC3 [⟨1⟩, ⟨2⟩, ⟨3⟩, ⟨4⟩, ⟨5⟩, ⟨6⟩, ⟨7⟩, ⟨8⟩, ⟨9⟩, ⟨10⟩, ⟨11⟩, ⟨12⟩]) =
      some ⟨⟨[⟨"MatMul", "mm", ["X", "W_transposed"], ["y"], []⟩],
        [⟨"W_transposed", [3, 4],
          .f32 [⟨1⟩, ⟨4⟩, ⟨7⟩, ⟨10⟩, ⟨2⟩, ⟨5⟩, ⟨8⟩, ⟨11⟩, ⟨3⟩, ⟨6⟩, ⟨9⟩, ⟨12⟩]⟩],
        [⟨"X"⟩]⟩, [⟨"", 9⟩]⟩ :=
  claim_C3_transpose_fold ⟨1⟩ ⟨2⟩ ⟨3⟩ ⟨4⟩ ⟨5⟩ ⟨6⟩ ⟨7⟩ ⟨8⟩ ⟨9⟩ ⟨10⟩ ⟨11⟩ ⟨12⟩

/-- Claim C7, counterexample: a Concat (all inputs Unsqueeze-produced) whose
output has a unique consumer that is a Gather, not a Reshape.  The claim says
`process_concat` skips the candidate without failing; in fact the assertion
`reshape_node.op_type == 'Reshape'` fails and the whole pass aborts. -/
theorem claim_C7_counterexample : process_concat mC7bad = none := rfl

/-- Claim C7 as amended: a Concat whose output has NO unique consumer (here:
zero consumers) is skipped, it and its upstream nodes are left unchanged, and
processing continues with the next candidate (here: a second candidate that
is folded); only a unique consumer of a kind other than Reshape makes the
pass fail. -/
theorem claim_C7_amended :
    process_concat mC7 =
      some ⟨⟨[constI "a1" "a1v" 5,
          ⟨"Unsqueeze", "ua", ["a1v"], ["uav"], []⟩,
          ⟨"Concat", "ca", ["uav"], ["cav"], []⟩,
          ⟨"Reshape", "rb", ["x", "concat_shape_0"], ["y"], []⟩,
          constNodeT "concat_shape_node_0" "concat_shape_0" ⟨"", [1], .i64 [7]⟩],
        [], []⟩, [⟨"", 9⟩]⟩ :=
  rfl

/-- Claim C6, counterexample: one Constant feeds both Unsqueeze inputs of the
folded Concat, so its position 0 is collected twice; the delete list
[3, 1, 2, 0, 0] is NOT deduplicated, and deleting position 0 twice removes
the already-rewired Reshape — a node outside the collected ancestor sets —
leaving only the new shape constant in the graph. -/
theorem claim_C6_counterexample :
    processConcatScan mC6bad = some ⟨[(4, [5, 5])], [3, 1, 2, 0, 0]⟩ ∧
    ¬ ([3, 1, 2, 0, 0] : List Nat).Nodup ∧
    process_concat mC6bad =
      some ⟨⟨[constNodeT "concat_shape_node_0" "concat_shape_0" ⟨"", [2], .i64 [5, 5]⟩],
        [], []⟩, [⟨"", 9⟩]⟩ ∧
    mC6bad.graph.node.any (fun n => n.op_type = "Reshape") = true :=
  ⟨rfl, by decide, rfl, rfl⟩

/-- Claim C9, counterexample: an initializer-fed Transpose with permutation
[0, 1] whose weight is ALSO consumed by a second node.  The claim says any
initializer-fed Transpose with a non-[1,0] permutation halts the run; in
fact the multi-consumer check skips the candidate before the permutation is
ever inspected, and `fix_transpose` returns the graph unchanged. -/
theorem claim_C9_counterexample : fix_transpose mC9b = some mC9b := rfl

/-- Claim C8, counterexample: the folded weight `V` is not among the graph
inputs; the claim says the clean-up completes, removing only the initializer
entry, but `find_input_index` returns the absent sentinel, which the clean-up
then uses as a deletion index, and the pass aborts with an error. -/
theorem claim_C8_counterexample : fix_transpose mC8bad = none := rfl

/-- Claim C8 as amended: when the dead weight's name is among the graph
inputs, both its graph-input entry and its initializer entry are removed
(other entries survive); when it is absent from the graph inputs, the
clean-up does not tolerate the absent lookup and the pass fails. -/
theorem claim_C8_amended :
    fix_transpose mC8ok =
      some ⟨⟨[⟨"Mul", "mu", ["V_transposed", "z"], ["y"], []⟩],
        [⟨"V_transposed", [2, 1], .f32 [⟨10⟩, ⟨20⟩]⟩],
        [⟨"X"⟩]⟩, [⟨"", 9⟩]⟩ ∧
    fix_transpose mC8bad = none :=
  ⟨rfl, rfl⟩

/-- Claim C9 as amended: an initializer-fed Transpose whose weight no other
node references, with ANY permutation attribute other than [1, 0], makes
`fix_transpose` halt with a fatal assertion failure; only when the weight has
further consumers is the candidate skipped before the permutation check. -/
theorem claim_C9_amended (p : List Int) (hp : p ≠ [1, 0]) :
    fix_transpose (mC9gen p) = none := by
  simp [fix_transpose, mC9gen, optFoldl, fixTransposeScanStep, find_initializer,
        inputOccurrences, get_node_index, firstIdxOf, hp]

/-- Witness for the amended C9 theorem at the identity permutation [0, 1]. -/
theorem claim_C9_amended_witness :
    ([0, 1] : List Int) ≠ [1, 0] ∧ fix_transpose (mC9gen [0, 1]) = none :=
  ⟨by decide, claim_C9_amended [0, 1] (by decide)⟩

/-- Claim C1: a successful `transform_gpt2` run is exactly the four passes
Name Assignment, Dynamic-Shape Folding, Matrix-Transpose Folding, Dropout
Upgrade in that order followed by the version stamp, and afterwards the first
operator-set-import entry has version exactly 11, whatever it was before. -/
theorem claim_C1_orchestrator (m m' : Model) (h : transform_gpt2 m = some m') :
    (∃ m2 m3 m4, process_concat (add_name m) = some m2 ∧ fix_transpose m2 = some m3 ∧
      process_dropout m3 = some m4 ∧ stampOpset m4 = some m') ∧
    ∃ o os, m'.opset_import = o :: os ∧ o.version = 11 := by
  unfold transform_gpt2 at h
  rcases h2 : process_concat (add_name m) with _ | m2
  · simp only [h2] at h; exact Option.noConfusion h
  simp only [h2] at h
  rcases h3 : fix_transpose m2 with _ | m3
  · simp only [h3] at h; exact Option.noConfusion h
  simp only [h3] at h
  rcases h4 : process_dropout m3 with _ | m4
  · simp only [h4] at h; exact Option.noConfusion h
  simp only [h4] at h
  refine ⟨⟨m2, m3, m4, rfl, h3, h4, h⟩, ?_⟩
  unfold stampOpset at h
  rcases h5 : m4.opset_import with _ | ⟨o, os⟩
  · simp only [h5] at h; exact Option.noConfusion h
  simp only [h5] at h
  injection h with h
  subst h
  exact ⟨_, os, rfl, rfl⟩

/-- Witness for C1: a run on the empty model with prior opset version 9. -/
theorem claim_C1_witness :
    (∃ m2 m3 m4, process_concat (add_name mTiny) = some m2 ∧ fix_transpose m2 = some m3 ∧
      process_dropout m3 = some m4 ∧ stampOpset m4 = some ⟨⟨[], [], []⟩, [⟨"", 11⟩]⟩) ∧
    ∃ o os, (⟨⟨[], [], []⟩, [⟨"", 11⟩]⟩ : Model).opset_import = o :: os ∧ o.version = 11 :=
  claim_C1_orchestrator mTiny ⟨⟨[], [], []⟩, [⟨"", 11⟩]⟩ rfl


theorem seqMap_eq_none_iff {α β : Type} (f : α → Option β) (l : List α) :
    seqMap f l = none ↔ ∃ x ∈ l, f x = none := by
  induction l with
  | nil => simp [seqMap]
  | cons x xs ih =>
    cases hfx : f x with
    | none => simp [seqMap, hfx]
    | some y =>
      cases hxs : seqMap f xs with
      | none =>
        simp only [seqMap, hfx, hxs]
        constructor
        · intro _
          obtain ⟨z, hz, hfz⟩ := ih.mp hxs
          exact ⟨z, List.mem_cons_of_mem x hz, hfz⟩
        · intro _; trivial
      | some ys =>
        simp only [seqMap, hfx, hxs]
        constructor
        · intro hcontra; exact Option.noConfusion hcontra
        · rintro ⟨z, hz, hfz⟩
          rcases List.mem_cons.mp hz with rfl | hz'
          · rw [hfx] at hfz; exact Option.noConfusion hfz
          · have hn := ih.mpr ⟨z, hz', hfz⟩
            rw [hxs] at hn; exact Option.noConfusion hn

theorem seqMap_forall₂ {α β : Type} (f : α → Option β) :
    ∀ (l : List α) (ys : List β), seqMap f l = some ys →
      List.Forall₂ (fun x y => f x = some y) l ys := by
  intro l
  induction l with
  | nil => intro ys h; simp only [seqMap] at h; injection h with h; subst h; exact .nil
  | cons x xs ih =>
    intro ys h
    cases hfx : f x with
    | none => rw [seqMap, hfx] at h; exact Option.noConfusion h
    | some y =>
      cases hxs : seqMap f xs with
      | none => rw [seqMap, hfx, hxs] at h; exact Option.noConfusion h
      | some ys0 =>
        rw [seqMap, hfx, hxs] at h
        injection h with h; subst h
        exact .cons hfx (ih ys0 hxs)

theorem forall₂_some_mem_left {α β : Type} {f : α → Option β} :
    ∀ {l : List α} {ys : List β}, List.Forall₂ (fun x y => f x = some y) l ys →
      ∀ x ∈ l, ∃ y, y ∈ ys ∧ f x = some y := by
  intro l ys h
  induction h with
  | nil => intro x hx; cases hx
  | cons hxy _ ih =>
    intro z hz
    rcases List.mem_cons.mp hz with rfl | hz'
    · exact ⟨_, List.mem_cons_self .., hxy⟩
    · obtain ⟨y, hy, hfy⟩ := ih z hz'
      exact ⟨y, List.mem_cons_of_mem _ hy, hfy⟩

theorem forall₂_some_mem_right {α β : Type} {f : α → Option β} :
    ∀ {l : List α} {ys : List β}, List.Forall₂ (fun x y => f x = some y) l ys →
      ∀ y ∈ ys, ∃ x, x ∈ l ∧ f x = some y := by
  intro l ys h
  induction h with
  | nil => intro y hy; cases hy
  | cons hxy _ ih =>
    intro z hz
    rcases List.mem_cons.mp hz with rfl | hz'
    · exact ⟨_, List.mem_cons_self .., hxy⟩
    · obtain ⟨x, hx, hfx⟩ := ih z hz'
      exact ⟨x, List.mem_cons_of_mem _ hx, hfx⟩

theorem optFoldl_none {σ α : Type} (f : σ → α → Option σ) (c : α)
    (hfc : ∀ s, f s c = none) :
    ∀ (l : List α) (s0 : σ), c ∈ l → optFoldl f s0 l = none := by
  intro l
  induction l with
  | nil => intro s0 h; cases h
  | cons x xs ih =>
    intro s0 hc
    rcases List.mem_cons.mp hc with rfl | hmem
    · simp [optFoldl, hfc s0]
    · cases hfx : f s0 x with
      | none => simp [optFoldl, hfx]
      | some s' =>
        simp only [optFoldl, hfx]
        exact ih s' hmem

theorem processConcatStep_none (m : Model) (c : Node) (hop : c.op_type = "Concat")
    (hbad : ∃ i ∈ c.input, find_input_node m i = none) (s : ConcatState) :
    processConcatStep m s c = none := by
  obtain ⟨i, hi, hnone⟩ := hbad
  have hsm : seqMap (find_input_node m) c.input = none :=
    (seqMap_eq_none_iff _ _).mpr ⟨i, hi, hnone⟩
  simp [processConcatStep, hop, hsm]

/-- Claim C10: when some input of a Concat node has no unique producing node,
`process_concat` fails (the producer lookup returns the absent sentinel whose
attribute access raises) instead of skipping the candidate; and the computed
skip decision is `true` exactly when every input has a unique producer and at
least one producer is not an Unsqueeze. -/
theorem claim_C10_producer_check (m : Model) (c : Node) (hc : c ∈ m.graph.node)
    (hop : c.op_type = "Concat") :
    ((∃ i ∈ c.input, find_input_node m i = none) → process_concat m = none) ∧
    (concatSkip m c = some true ↔
      ((∀ i ∈ c.input, ∃ p, find_input_node m i = some p) ∧
       ∃ i ∈ c.input, ∃ p, find_input_node m i = some p ∧ p.op_type ≠ "Unsqueeze")) := by
  constructor
  · intro hbad
    have hscan : processConcatScan m = none :=
      optFoldl_none _ c (processConcatStep_none m c hop hbad) _ _ hc
    simp [process_concat, hscan]
  · cases hsm : seqMap (find_input_node m) c.input with
    | none =>
      simp only [concatSkip, hsm]
      constructor
      · intro h; exact Option.noConfusion h
      · rintro ⟨hall, -⟩
        obtain ⟨i, hi, hnone⟩ := (seqMap_eq_none_iff _ _).mp hsm
        obtain ⟨p, hp⟩ := hall i hi
        rw [hp] at hnone; exact Option.noConfusion hnone
    | some ps =>
      have hf2 := seqMap_forall₂ _ _ _ hsm
      simp only [concatSkip, hsm, Option.some_inj]
      constructor
      · intro hflag
        obtain ⟨p, hpmem, hcond⟩ := List.any_eq_true.mp hflag
        have hpne : p.op_type ≠ "Unsqueeze" := by
          by_cases hu : p.op_type = "Unsqueeze"
          · rw [if_pos hu] at hcond; exact Bool.noConfusion hcond
          · exact hu
        refine ⟨?_, ?_⟩
        · intro i hi
          obtain ⟨y, _, hfy⟩ := forall₂_some_mem_left hf2 i hi
          exact ⟨y, hfy⟩
        · obtain ⟨x, hx, hfx⟩ := forall₂_some_mem_right hf2 p hpmem
          exact ⟨x, hx, p, hfx, hpne⟩
      · rintro ⟨-, i, hi, p, hfi, hpne⟩
        obtain ⟨y, hy, hfy⟩ := forall₂_some_mem_left hf2 i hi
        rw [hfi] at hfy
        injection hfy with hfy
        subst hfy
        apply List.any_eq_true.mpr
        exact ⟨p, hy, by rw [if_neg hpne]⟩

/-- Witness for C10: a Concat whose input `z` no node produces. -/
theorem claim_C10_witness : process_concat mC10w = none :=
  (claim_C10_producer_check mC10w ⟨"Concat", "cc", ["z"], ["ccv"], []⟩ (by decide) rfl).1
    ⟨"z", by decide, rfl⟩

def decValC (c : Char) : Nat := c.toNat - 48

def decVal (cs : List Char) : Nat := cs.foldl (fun acc c => 10 * acc + decValC c) 0

theorem digitChar_ne_underscore (n : Nat) : digitChar n ≠ '_' := by
  unfold digitChar; split <;> decide

theorem decValC_digitChar (n : Nat) (h : n < 10) : decValC (digitChar n) = n := by
  interval_cases n <;> decide

theorem decVal_append_one (cs : List Char) (c : Char) :
    decVal (cs ++ [c]) = 10 * decVal cs + decValC c := by
  unfold decVal
  rw [List.foldl_append]
  rfl

theorem decVal_decDigitsAux : ∀ (fuel n : Nat), n < fuel →
    decVal (decDigitsAux fuel n) = n := by
  intro fuel
  induction fuel with
  | zero => intro n h; omega
  | succ fuel ih =>
    intro n h
    by_cases h10 : n < 10
    · simp only [decDigitsAux, if_pos h10]
      show decVal [digitChar n] = n
      unfold decVal
      simp [List.foldl, decValC_digitChar n h10]
    · simp only [decDigitsAux, if_neg h10]
      rw [decVal_append_one]
      have hdiv : n / 10 < n := Nat.div_lt_self (by omega) (by omega)
      have hmod : n % 10 < 10 := Nat.mod_lt _ (by omega)
      rw [ih (n / 10) (by omega), decValC_digitChar _ hmod]
      omega

theorem decDigitsAux_ne_underscore : ∀ (fuel n : Nat), ∀ c ∈ decDigitsAux fuel n,
    c ≠ '_' := by
  intro fuel
  induction fuel with
  | zero => intro n c hc; cases hc
  | succ fuel ih =>
    intro n c hc
    by_cases h10 : n < 10
    · rw [decDigitsAux, if_pos h10] at hc
      rcases List.mem_singleton.mp hc with rfl
      exact digitChar_ne_underscore n
    · rw [decDigitsAux, if_neg h10] at hc
      rcases List.mem_append.mp hc with hc1 | hc2
      · exact ih _ c hc1
      · rcases List.mem_singleton.mp hc2 with rfl
        exact digitChar_ne_underscore _

theorem underscore_head_inj : ∀ (u v a b : List Char),
    (∀ c ∈ u, c ≠ '_') → (∀ c ∈ v, c ≠ '_') →
    u ++ '_' :: a = v ++ '_' :: b → u = v ∧ a = b := by
  intro u
  induction u with
  | nil =>
    intro v a b _ hv h
    cases v with
    | nil => simpa using h
    | cons d v' =>
      simp only [List.nil_append, List.cons_append, List.cons.injEq] at h
      exact absurd h.1.symm (hv d (List.mem_cons_self ..))
  | cons c u' ih =>
    intro v a b hu hv h
    cases v with
    | nil =>
      simp only [List.cons_append, List.nil_append, List.cons.injEq] at h
      exact absurd h.1 (hu c (List.mem_cons_self ..))
    | cons d v' =>
      simp only [List.cons_append, List.cons.injEq] at h
      obtain ⟨rfl, h2⟩ := h
      obtain ⟨h3, h4⟩ := ih v' a b (fun x hx => hu x (List.mem_cons_of_mem _ hx))
        (fun x hx => hv x (List.mem_cons_of_mem _ hx)) h2
      exact ⟨by rw [h3], h4⟩

theorem nameIndex_inj (s1 s2 : String) (i j : Nat)
    (h : s1 ++ "_" ++ natStr i = s2 ++ "_" ++ natStr j) : i = j := by
  have hd : (s1.data ++ ['_']) ++ decDigitsAux (i + 1) i
      = (s2.data ++ ['_']) ++ decDigitsAux (j + 1) j := by
    have := congrArg String.data h
    simpa [String.data_append, natStr] using this
  have hrev := congrArg List.reverse hd
  simp only [List.reverse_append, List.reverse_cons, List.reverse_singleton] at hrev
  have hinj := underscore_head_inj (decDigitsAux (i + 1) i).reverse
    (decDigitsAux (j + 1) j).reverse s1.data.reverse s2.data.reverse
    (fun c hc => decDigitsAux_ne_underscore _ _ c (List.mem_reverse.mp hc))
    (fun c hc => decDigitsAux_ne_underscore _ _ c (List.mem_reverse.mp hc))
    (by simpa using hrev)
  have hdig : decDigitsAux (i + 1) i = decDigitsAux (j + 1) j :=
    List.reverse_injective hinj.1
  have := congrArg decVal hdig
  rwa [decVal_decDigitsAux _ _ (by omega), decVal_decDigitsAux _ _ (by omega)] at this

theorem addNameList_get? : ∀ (ns : List Node) (b k : Nat),
    (addNameList b ns).get? k =
      (ns.get? k).map (fun n => { n with name := n.op_type ++ "_" ++ natStr (b + k) }) := by
  intro ns
  induction ns with
  | nil => intro b k; simp [addNameList]
  | cons n ns ih =>
    intro b k
    cases k with
    | zero => simp [addNameList]
    | succ k' =>
      simp only [addNameList, List.get?_cons_succ, ih (b + 1) k']
      have harith : b + 1 + k' = b + (k' + 1) := by omega
      rw [harith]

theorem mem_addNameList_name : ∀ (ns : List Node) (b : Nat) (s : String),
    s ∈ (addNameList b ns).map Node.name →
    ∃ j n, b ≤ j ∧ s = Node.op_type n ++ "_" ++ natStr j := by
  intro ns
  induction ns with
  | nil => intro b s h; simp [addNameList] at h
  | cons n ns ih =>
    intro b s h
    simp only [addNameList, List.map_cons, List.mem_cons] at h
    rcases h with rfl | h'
    · exact ⟨b, n, le_refl b, rfl⟩
    · obtain ⟨j, n', hj, hs⟩ := ih (b + 1) s h'
      exact ⟨j, n', by omega, hs⟩

theorem addNameList_names_pairwise : ∀ (ns : List Node) (b : Nat),
    ((addNameList b ns).map Node.name).Pairwise (fun a c => a ≠ c) := by
  intro ns
  induction ns with
  | nil => intro b; simp [addNameList]
  | cons n ns ih =>
    intro b
    simp only [addNameList, List.map_cons]
    refine List.Pairwise.cons ?_ (ih (b + 1))
    intro s hs heq
    obtain ⟨j, n', hj, rfl⟩ := mem_addNameList_name ns (b + 1) s hs
    exact absurd (nameIndex_inj _ _ _ _ heq) (by omega)

/-- Claim C5: after `add_name`, the node at zero-based position i of the
pre-pass order keeps all its fields except the name, which becomes exactly
`"<op_type>_<i>"` with one single global counter, and all assigned names are
pairwise distinct. -/
theorem claim_C5_naming (m : Model) :
    (∀ i, i < m.graph.node.length →
      ∃ n, m.graph.node.get? i = some n ∧
        (add_name m).graph.node.get? i =
          some { n with name := n.op_type ++ "_" ++ natStr i }) ∧
    ((add_name m).graph.node.map Node.name).Nodup := by
  constructor
  · intro i hi
    cases hn : m.graph.node.get? i with
    | none => rw [List.get?_eq_none] at hn; omega
    | some n =>
      refine ⟨n, rfl, ?_⟩
      show (addNameList 0 m.graph.node).get? i = _
      rw [addNameList_get?, hn]
      simp
  · exact addNameList_names_pairwise m.graph.node 0

/-- Witness for C5 on a one-node model, at position 0. -/
theorem claim_C5_witness :
    (∃ n, mC5w.graph.node.get? 0 = some n ∧
      (add_name mC5w).graph.node.get? 0 =
        some { n with name := n.op_type ++ "_" ++ natStr 0 }) ∧
    ((add_name mC5w).graph.node.map Node.name).Nodup :=
  ⟨(claim_C5_naming mC5w).1 0 (by decide), (claim_C5_naming mC5w).2⟩

def rmGo {α : Type} (ps : List Nat) : Nat → List α → List α
  | _, [] => []
  | j, x :: xs => if j ∈ ps then rmGo ps (j + 1) xs else x :: rmGo ps (j + 1) xs

def removeIdxs {α : Type} (xs : List α) (ps : List Nat) : List α := rmGo ps 0 xs

theorem rmGo_all_lt {α : Type} (ps : List Nat) :
    ∀ (xs : List α) (j : Nat), (∀ q ∈ ps, q < j) → rmGo ps j xs = xs := by
  intro xs
  induction xs with
  | nil => intro j _; rfl
  | cons x xs ih =>
    intro j hj
    rw [rmGo, if_neg (fun hmem => absurd (hj j hmem) (by omega))]
    rw [ih (j + 1) (fun q hq => by have := hj q hq; omega)]

theorem rmGo_congr {α : Type} (ps qs : List Nat) (hpq : ∀ x, x ∈ ps ↔ x ∈ qs) :
    ∀ (xs : List α) (j : Nat), rmGo ps j xs = rmGo qs j xs := by
  intro xs
  induction xs with
  | nil => intro j; rfl
  | cons x xs ih =>
    intro j
    by_cases hj : j ∈ ps
    · rw [rmGo, if_pos hj, rmGo, if_pos ((hpq j).mp hj), ih]
    · rw [rmGo, if_neg hj, rmGo, if_neg (fun h => hj ((hpq j).mpr h)), ih]

theorem rmGo_eraseIdx {α : Type} :
    ∀ (xs : List α) (q j : Nat) (ps : List Nat), q < xs.length →
      (∀ x ∈ ps, x < j + q) →
      rmGo ps j (xs.eraseIdx q) = rmGo ((j + q) :: ps) j xs := by
  intro xs
  induction xs with
  | nil => intro q j ps hq _; simp at hq
  | cons x xs ih =>
    intro q j ps hq hps
    cases q with
    | zero =>
      show rmGo ps j xs = rmGo (j :: ps) j (x :: xs)
      rw [rmGo, if_pos (List.mem_cons_self ..)]
      rw [rmGo_all_lt ps xs j (fun q hq' => by have := hps q hq'; omega)]
      rw [rmGo_all_lt (j :: ps) xs (j + 1) ?_]
      intro q hq'
      rcases List.mem_cons.mp hq' with rfl | h
      · omega
      · have := hps q h; omega
    | succ q' =>
      show rmGo ps j (x :: xs.eraseIdx q') = rmGo ((j + (q' + 1)) :: ps) j (x :: xs)
      have hne : j ≠ j + (q' + 1) := by omega
      by_cases hj : j ∈ ps
      · rw [rmGo, if_pos hj, rmGo, if_pos (List.mem_cons_of_mem _ hj)]
        rw [ih q' (j + 1) ps (by simpa using hq) (fun x hx => by have := hps x hx; omega)]
        have : j + 1 + q' = j + (q' + 1) := by omega
        rw [this]
      · have hj2 : j ∉ (j + (q' + 1)) :: ps := by
          intro hmem
          rcases List.mem_cons.mp hmem with h | h
          · exact hne h
          · exact hj h
        rw [rmGo, if_neg hj, rmGo, if_neg hj2]
        rw [ih q' (j + 1) ps (by simpa using hq) (fun x hx => by have := hps x hx; omega)]
        have : j + 1 + q' = j + (q' + 1) := by omega
        rw [this]

theorem delMany_desc {α : Type} :
    ∀ (qs : List Nat) (xs : List α), qs.Pairwise (fun a b => a > b) →
      (∀ q ∈ qs, q < xs.length) → delMany xs qs = some (removeIdxs xs qs) := by
  intro qs
  induction qs with
  | nil =>
    intro xs _ _
    show some xs = some (rmGo [] 0 xs)
    rw [rmGo_all_lt [] xs 0 (by simp)]
  | cons q qs ih =>
    intro xs hpw hb
    have hq : q < xs.length := hb q (List.mem_cons_self ..)
    rcases List.pairwise_cons.mp hpw with ⟨hgt, hpw'⟩
    have hlen : (xs.eraseIdx q).length + 1 = xs.length :=
      List.length_eraseIdx_add_one hq
    show (match delIdx xs q with
      | none => none
      | some xs' => delMany xs' qs) = some (removeIdxs xs (q :: qs))
    rw [delIdx, if_pos hq]
    show delMany (xs.eraseIdx q) qs = some (removeIdxs xs (q :: qs))
    rw [ih (xs.eraseIdx q) hpw' (fun p hp => by have := hgt p hp; omega)]
    unfold removeIdxs
    rw [rmGo_eraseIdx xs q 0 qs hq (fun x hx => by have := hgt x hx; omega)]
    rw [Nat.zero_add]

theorem sortDesc_perm (l : List Nat) : List.Perm (sortDesc l) l := List.perm_insertionSort _ l

theorem sortDesc_sorted (l : List Nat) : (sortDesc l).Pairwise (fun a b => a ≥ b) :=
  List.sorted_insertionSort _ l

theorem pairwise_gt_of_ge_nodup :
    ∀ (l : List Nat), l.Pairwise (fun a b => a ≥ b) → l.Nodup →
      l.Pairwise (fun a b => a > b) := by
  intro l
  induction l with
  | nil => intro _ _; exact .nil
  | cons x xs ih =>
    intro h1 h2
    rcases List.pairwise_cons.mp h1 with ⟨hge, h1'⟩
    rcases List.nodup_cons.mp h2 with ⟨hnm, h2'⟩
    refine List.Pairwise.cons (fun y hy => ?_) (ih h1' h2')
    have hne : x ≠ y := fun h => hnm (h ▸ hy)
    have := hge y hy
    omega

/-- Claim C6 as amended: the delete positions collected across all folded
Concat candidates are sorted in descending order but NOT deduplicated; when
they happen to be pairwise distinct (and in range), the final batch deletes
exactly the collected positions — each collected node is deleted once and no
other node is removed (`removeIdxs` keeps precisely the positions outside the
collected set). -/
theorem claim_C6_amended (m : Model) (s : ConcatState) (m2 : Model)
    (hscan : processConcatScan m = some s)
    (hins : insertShapes m 0 s.new_nodes = some m2)
    (hnodup : s.delete_nodes.Nodup)
    (hbound : ∀ p ∈ s.delete_nodes, p < m2.graph.node.length) :
    process_concat m = some (m2.setNodes (removeIdxs m2.graph.node s.delete_nodes)) := by
  have hperm : List.Perm (sortDesc s.delete_nodes) s.delete_nodes := sortDesc_perm _
  have hsorted := sortDesc_sorted s.delete_nodes
  have hnodup' : (sortDesc s.delete_nodes).Nodup := hperm.nodup_iff.mpr hnodup
  have hgt := pairwise_gt_of_ge_nodup _ hsorted hnodup'
  have hbound' : ∀ q ∈ sortDesc s.delete_nodes, q < m2.graph.node.length :=
    fun q hq => hbound q (hperm.subset hq)
  have hdel := delMany_desc (sortDesc s.delete_nodes) m2.graph.node hgt hbound'
  have hrm : rmGo (sortDesc s.delete_nodes) 0 m2.graph.node
      = rmGo s.delete_nodes 0 m2.graph.node :=
    rmGo_congr _ _ (fun x => ⟨fun h => hperm.subset h, fun h => (hperm.mem_iff).mpr h⟩) _ 0
  simp only [process_concat, hscan, hins, hdel]
  unfold removeIdxs
  rw [hrm]

/-- The model mC6ok after the insertion phase of `process_concat`. -/
def mC6okMid : Model :=
  ⟨⟨[constI "c1" "c1v" 5,
     constI "c2" "c2v" 7,
     ⟨"Unsqueeze", "u1", ["c1v"], ["u1v"], []⟩,
     ⟨"Unsqueeze", "u2", ["c2v"], ["u2v"], []⟩,
     ⟨"Concat", "cc", ["u1v", "u2v"], ["ccv"], []⟩,
     ⟨"Reshape", "rs", ["x", "concat_shape_0"], ["y"], []⟩,
     constNodeT "concat_shape_node_0" "concat_shape_0" ⟨"", [2], .i64 [5, 7]⟩],
    [], []⟩, [⟨"", 9⟩]⟩

/-- Witness for the amended C6 on a candidate with pairwise-distinct
collected ancestors. -/
theorem claim_C6_witness :
    process_concat mC6ok =
      some (mC6okMid.setNodes (removeIdxs mC6okMid.graph.node [4, 2, 3, 0, 1])) :=
  claim_C6_amended mC6ok ⟨[(5, [5, 7])], [4, 2, 3, 0, 1]⟩ mC6okMid rfl rfl
    (by decide) (by decide)

/-- The Dropout nodes of a list, in order. -/
def dropoutsOf (ns : List Node) : List Node :=
  ns.filter (fun n => n.op_type = "Dropout")

/-- The nodes `process_dropout` appends for the Dropout list `ds`, numbered
from `k`: per Dropout, the TrainableDropout then the ratio Constant. -/
def dropPairs : Nat → List Node → Option (List Node)
  | _, [] => some []
  | k, d :: ds =>
    match d.input, d.attrs with
    | x :: _, a :: _ =>
      match dropPairs (k + 1) ds with
      | none => none
      | some rest => some (mkTrainable k d x :: mkRatioNode k a.f :: rest)
    | _, _ => none

/-- Absolute positions (offset `j`) of the Dropout nodes of a list. -/
def dropPos (j : Nat) : List Node → List Nat
  | [] => []
  | n :: ns =>
    if n.op_type = "Dropout" then j :: dropPos (j + 1) ns else dropPos (j + 1) ns

theorem dropPos_ge : ∀ (ns : List Node) (j : Nat), ∀ p ∈ dropPos j ns, j ≤ p := by
  intro ns
  induction ns with
  | nil => intro j p hp; cases hp
  | cons n ns ih =>
    intro j p hp
    by_cases hn : n.op_type = "Dropout"
    · rw [dropPos, if_pos hn] at hp
      rcases List.mem_cons.mp hp with rfl | hp'
      · omega
      · have := ih (j + 1) p hp'; omega
    · rw [dropPos, if_neg hn] at hp
      have := ih (j + 1) p hp; omega

theorem dropPos_lt : ∀ (ns : List Node) (j : Nat), ∀ p ∈ dropPos j ns, p < j + ns.length := by
  intro ns
  induction ns with
  | nil => intro j p hp; cases hp
  | cons n ns ih =>
    intro j p hp
    by_cases hn : n.op_type = "Dropout"
    · rw [dropPos, if_pos hn] at hp
      rcases List.mem_cons.mp hp with rfl | hp'
      · simp only [List.length_cons]; omega
      · have := ih (j + 1) p hp'; simp only [List.length_cons]; omega
    · rw [dropPos, if_neg hn] at hp
      have := ih (j + 1) p hp; simp only [List.length_cons]; omega

theorem dropPos_increasing : ∀ (ns : List Node) (j : Nat),
    (dropPos j ns).Pairwise (fun a b => a < b) := by
  intro ns
  induction ns with
  | nil => intro j; exact .nil
  | cons n ns ih =>
    intro j
    by_cases hn : n.op_type = "Dropout"
    · rw [dropPos, if_pos hn]
      refine List.Pairwise.cons (fun p hp => ?_) (ih (j + 1))
      have := dropPos_ge ns (j + 1) p hp; omega
    · rw [dropPos, if_neg hn]; exact ih (j + 1)

theorem dropPos_nil_of_free : ∀ (extra : List Node) (j : Nat),
    (∀ e ∈ extra, ¬ e.op_type = "Dropout") → dropPos j extra = [] := by
  intro extra
  induction extra with
  | nil => intro j _; rfl
  | cons e es ih =>
    intro j hfree
    rw [dropPos, if_neg (hfree e (List.mem_cons_self ..))]
    exact ih (j + 1) (fun x hx => hfree x (List.mem_cons_of_mem _ hx))

theorem dropPos_append_free : ∀ (ns extra : List Node) (j : Nat),
    (∀ e ∈ extra, ¬ e.op_type = "Dropout") →
    dropPos j (ns ++ extra) = dropPos j ns := by
  intro ns extra
  induction ns with
  | nil =>
    intro j hfree
    show dropPos j extra = []
    exact dropPos_nil_of_free extra j hfree
  | cons n ns ih =>
    intro j hfree
    show dropPos j (n :: (ns ++ extra)) = dropPos j (n :: ns)
    by_cases hn : n.op_type = "Dropout"
    · rw [dropPos, if_pos hn, dropPos, if_pos hn, ih _ hfree]
    · rw [dropPos, if_neg hn, dropPos, if_neg hn, ih _ hfree]

theorem rmGo_cons_lt {α : Type} : ∀ (xs : List α) (a j : Nat) (ps : List Nat), a < j →
    rmGo (a :: ps) j xs = rmGo ps j xs := by
  intro xs
  induction xs with
  | nil => intro a j ps _; rfl
  | cons x xs ih =>
    intro a j ps ha
    by_cases hj : j ∈ ps
    · rw [rmGo, if_pos (List.mem_cons_of_mem _ hj), rmGo, if_pos hj, ih _ _ _ (by omega)]
    · have hj2 : j ∉ a :: ps := by
        intro hmem
        rcases List.mem_cons.mp hmem with rfl | h
        · omega
        · exact hj h
      rw [rmGo, if_neg hj2, rmGo, if_neg hj, ih _ _ _ (by omega)]

theorem rmGo_dropPos : ∀ (ns : List Node) (j : Nat),
    rmGo (dropPos j ns) j ns = ns.filter (fun n => ¬ n.op_type = "Dropout") := by
  intro ns
  induction ns with
  | nil => intro j; rfl
  | cons n ns ih =>
    intro j
    by_cases hn : n.op_type = "Dropout"
    · rw [dropPos, if_pos hn, rmGo, if_pos (List.mem_cons_self ..),
        rmGo_cons_lt ns j (j + 1) _ (by omega), ih (j + 1)]
      rw [List.filter_cons]
      simp [hn]
    · have hj : j ∉ dropPos (j + 1) ns := by
        intro hmem; have := dropPos_ge ns (j + 1) j hmem; omega
      rw [dropPos, if_neg hn, rmGo, if_neg hj, ih (j + 1)]
      rw [List.filter_cons]
      simp [hn]

theorem rmGo_append_beyond {α : Type} : ∀ (xs ys : List α) (j : Nat) (ps : List Nat),
    (∀ q ∈ ps, q < j + xs.length) →
    rmGo ps j (xs ++ ys) = rmGo ps j xs ++ ys := by
  intro xs
  induction xs with
  | nil =>
    intro ys j ps hps
    show rmGo ps j ys = [] ++ ys
    rw [List.nil_append, rmGo_all_lt ps ys j (fun q hq => by have := hps q hq; simp at this; omega)]
  | cons x xs ih =>
    intro ys j ps hps
    show rmGo ps j (x :: (xs ++ ys)) = rmGo ps j (x :: xs) ++ ys
    by_cases hj : j ∈ ps
    · rw [rmGo, if_pos hj, rmGo, if_pos hj, ih ys (j + 1) ps ?_]
      intro q hq; have := hps q hq; simp at this ⊢; omega
    · rw [rmGo, if_neg hj, rmGo, if_neg hj, ih ys (j + 1) ps ?_]
      · rfl
      intro q hq; have := hps q hq; simp at this ⊢; omega

theorem firstIdxOf_append_left : ∀ (ns ms : List Node) (t : Node) (q : Nat),
    firstIdxOf t ns = some q → firstIdxOf t (ns ++ ms) = some q := by
  intro ns ms t
  induction ns with
  | nil => intro q h; exact Option.noConfusion h
  | cons x xs ih =>
    intro q h
    by_cases hx : x = t
    · rw [firstIdxOf, if_pos hx] at h
      rw [List.cons_append, firstIdxOf, if_pos hx]
      exact h
    · rw [firstIdxOf, if_neg hx] at h
      rw [List.cons_append, firstIdxOf, if_neg hx]
      cases hxs : firstIdxOf t xs with
      | none => rw [hxs] at h; exact Option.noConfusion h
      | some q' => rw [hxs] at h; rw [ih q' hxs]; exact h

theorem firstIdxOf_self : ∀ (ns : List Node) (i : Nat) (d : Node),
    ns.get? i = some d →
    (∀ p, p < i → ∀ dp, ns.get? p = some dp → dp ≠ d) →
    firstIdxOf d ns = some i := by
  intro ns
  induction ns with
  | nil => intro i d h _; rw [List.get?_eq_none.mpr (by simp)] at h; exact Option.noConfusion h
  | cons x xs ih =>
    intro i d hget hprev
    cases i with
    | zero =>
      have hx : x = d := by
        have : (x :: xs).get? 0 = some x := rfl
        rw [this] at hget; injection hget
      rw [firstIdxOf, if_pos hx]
    | succ i' =>
      have hx : x ≠ d := hprev 0 (by omega) x rfl
      rw [firstIdxOf, if_neg hx]
      have hget' : xs.get? i' = some d := hget
      rw [ih i' d hget' (fun p hp dp hdp => hprev (p + 1) (by omega) dp hdp)]
      rfl

/-- No Dropout node of the list is value-equal to any earlier node; this is
what makes `get_node_index` return each Dropout's true position, and it holds
in particular whenever the node names are pairwise distinct. -/
def NoDupDropouts (ns : List Node) : Prop :=
  ∀ p q, p < q → ∀ dq, ns.get? q = some dq → dq.op_type = "Dropout" →
    ∀ dp, ns.get? p = some dp → dp ≠ dq

theorem noDupDropouts_append (ns extra : List Node)
    (h : NoDupDropouts ns) (hfree : ∀ e ∈ extra, ¬ e.op_type = "Dropout") :
    NoDupDropouts (ns ++ extra) := by
  intro p q hpq dq hq hdrop dp hp
  by_cases hqlen : q < ns.length
  · have hplen : p < ns.length := by omega
    rw [List.get?_append hqlen] at hq
    rw [List.get?_append hplen] at hp
    exact h p q hpq dq hq hdrop dp hp
  · rw [List.get?_append_right (by omega)] at hq
    have hmem : dq ∈ extra := List.get?_mem hq
    exact absurd hdrop (hfree dq hmem)

theorem dropoutsOf_append (l l' : List Node) :
    dropoutsOf (l ++ l') = dropoutsOf l ++ dropoutsOf l' := by
  simp [dropoutsOf, List.filter_append]

theorem dropLoop_spec : ∀ (fuel : Nat) (nodes : List Node) (i k : Nat) (dels : List Nat),
    nodes.length - i + 2 * (dropoutsOf (nodes.drop i)).length < fuel →
    NoDupDropouts nodes →
    dropLoop fuel nodes i k dels =
      (match dropPairs k (dropoutsOf (nodes.drop i)) with
       | none => none
       | some pairs => some (nodes ++ pairs, dels ++ dropPos i (nodes.drop i))) := by
  intro fuel
  induction fuel with
  | zero => intro nodes i k dels hfuel _; omega
  | succ fuel ih =>
    intro nodes i k dels hfuel hdistinct
    rw [dropLoop]
    cases hget : nodes.get? i with
    | none =>
      have hlen : nodes.length ≤ i := List.get?_eq_none.mp hget
      have hdrop : nodes.drop i = [] := by
        have : (nodes.drop i).length = 0 := by rw [List.length_drop]; omega
        exact List.length_eq_zero.mp this
      rw [hdrop]
      show some (nodes, dels) = _
      show some (nodes, dels) =
        (match dropPairs k (dropoutsOf []) with
         | none => none
         | some pairs => some (nodes ++ pairs, dels ++ dropPos i []))
      simp [dropoutsOf, dropPairs, dropPos]
    | some node =>
      have hlt : i < nodes.length := by
        by_contra hcon
        rw [List.get?_eq_none.mpr (by omega)] at hget
        exact Option.noConfusion hget
      have hgetE : nodes[i]? = some node := by
        rw [← List.get?_eq_getElem?]; exact hget
      have hnode : nodes[i] = node := by
        rw [List.getElem?_eq_getElem hlt] at hgetE; injection hgetE
      have hdropeq : nodes.drop i = node :: nodes.drop (i + 1) := by
        rw [List.drop_eq_getElem_cons hlt, hnode]
      dsimp only
      by_cases hop : node.op_type = "Dropout"
      · rw [if_pos hop]
        cases hinp : node.input with
        | nil =>
          rw [hdropeq]
          show none = _
          rw [dropoutsOf, List.filter_cons_of_pos (by simp [hop])]
          show none = (match dropPairs k (node :: _) with
            | none => none
            | some pairs => some _)
          rw [dropPairs, hinp]
        | cons x xrest =>
          cases hattr : node.attrs with
          | nil =>
            rw [hdropeq]
            show none = _
            rw [dropoutsOf, List.filter_cons_of_pos (by simp [hop])]
            show none = (match dropPairs k (node :: _) with
              | none => none
              | some pairs => some _)
            rw [dropPairs, hinp, hattr]
          | cons a arest =>
            have hfree : ∀ e ∈ [mkTrainable k node x, mkRatioNode k a.f],
                ¬ e.op_type = "Dropout" := by
              intro e he
              rcases List.mem_cons.mp he with rfl | he'
              · exact fun hcon => by simp [mkTrainable] at hcon
              rcases List.mem_cons.mp he' with rfl | he''
              · exact fun hcon => by simp [mkRatioNode, constNodeT] at hcon
              · cases he''
            have hfirst : firstIdxOf node
                (nodes ++ [mkTrainable k node x, mkRatioNode k a.f]) = some i :=
              firstIdxOf_append_left _ _ _ _
                (firstIdxOf_self nodes i node hget
                  (fun p hp dp hdp => hdistinct p i hp node hget hop dp hdp))
            dsimp only
            rw [hfirst]
            dsimp only
            have hdrop2 : (nodes ++ [mkTrainable k node x, mkRatioNode k a.f]).drop (i + 1)
                = nodes.drop (i + 1) ++ [mkTrainable k node x, mkRatioNode k a.f] :=
              List.drop_append_of_le_length (by omega)
            have hcount : dropoutsOf (nodes.drop i)
                = node :: dropoutsOf (nodes.drop (i + 1)) := by
              rw [hdropeq, dropoutsOf, List.filter_cons_of_pos (by simp [hop])]
              rfl
            have hnil2 : dropoutsOf [mkTrainable k node x, mkRatioNode k a.f] = [] := by
              simp [dropoutsOf, mkTrainable, mkRatioNode, constNodeT]
            have hfuel2 : (nodes ++ [mkTrainable k node x, mkRatioNode k a.f]).length - (i + 1)
                + 2 * (dropoutsOf ((nodes ++ [mkTrainable k node x, mkRatioNode k a.f]).drop (i + 1))).length < fuel := by
              rw [hdrop2, dropoutsOf_append, hnil2, List.append_nil, List.length_append]
              rw [hcount] at hfuel
              simp only [List.length_cons] at hfuel
              simp only [List.length_cons, List.length_nil]
              omega
            rw [ih _ (i + 1) (k + 1) (dels ++ [i]) hfuel2
              (noDupDropouts_append nodes _ hdistinct hfree)]
            rw [hdrop2, dropPos_append_free _ _ _ hfree]
            have hpairs : dropoutsOf (nodes.drop (i + 1) ++ [mkTrainable k node x, mkRatioNode k a.f])
                = dropoutsOf (nodes.drop (i + 1)) := by
              rw [dropoutsOf_append, hnil2, List.append_nil]
            rw [hpairs, hcount]
            show _ = (match dropPairs k (node :: dropoutsOf (nodes.drop (i + 1))) with
              | none => none
              | some pairs => some (nodes ++ pairs, dels ++ dropPos i (nodes.drop i)))
            rw [dropPairs, hinp, hattr]
            cases hrest : dropPairs (k + 1) (dropoutsOf (nodes.drop (i + 1))) with
            | none => rfl
            | some r =>
              show some (nodes ++ [mkTrainable k node x, mkRatioNode k a.f] ++ r,
                  dels ++ [i] ++ dropPos (i + 1) (nodes.drop (i + 1))) = _
              have e1 : nodes ++ [mkTrainable k node x, mkRatioNode k a.f] ++ r
                  = nodes ++ (mkTrainable k node x :: mkRatioNode k a.f :: r) := by
                rw [List.append_assoc]; rfl
              have e2 : dels ++ [i] ++ dropPos (i + 1) (nodes.drop (i + 1))
                  = dels ++ dropPos i (nodes.drop i) := by
                rw [hdropeq, dropPos, if_pos hop, List.append_assoc]; rfl
              rw [e1, e2]
      · rw [if_neg hop]
        have hcount : dropoutsOf (nodes.drop i) = dropoutsOf (nodes.drop (i + 1)) := by
          rw [hdropeq, dropoutsOf, List.filter_cons_of_neg (by simp [hop])]
          rfl
        have hfuel2 : nodes.length - (i + 1)
            + 2 * (dropoutsOf (nodes.drop (i + 1))).length < fuel := by
          rw [hcount] at hfuel; omega
        rw [ih nodes (i + 1) k dels hfuel2 hdistinct, hcount]
        have hpos : dropPos i (nodes.drop i) = dropPos (i + 1) (nodes.drop (i + 1)) := by
          rw [hdropeq, dropPos, if_neg hop]
        rw [hpos]

theorem dropPairs_mem : ∀ (ds : List Node) (k0 : Nat) (pairs : List Node),
    dropPairs k0 ds = some pairs →
    ∀ j d, ds.get? j = some d →
      ∃ x xs a as, d.input = x :: xs ∧ d.attrs = a :: as ∧
        mkTrainable (k0 + j) d x ∈ pairs ∧ mkRatioNode (k0 + j) a.f ∈ pairs := by
  intro ds
  induction ds with
  | nil =>
    intro k0 pairs _ j d hd
    rw [List.get?_eq_none.mpr (by simp)] at hd
    exact Option.noConfusion hd
  | cons e es ih =>
    intro k0 pairs h j d hd
    cases hinp : e.input with
    | nil => rw [dropPairs, hinp] at h; exact Option.noConfusion h
    | cons x xs' =>
      cases hattr : e.attrs with
      | nil => rw [dropPairs, hinp, hattr] at h; exact Option.noConfusion h
      | cons a as' =>
        rw [dropPairs, hinp, hattr] at h
        cases hrest : dropPairs (k0 + 1) es with
        | none => rw [hrest] at h; exact Option.noConfusion h
        | some r =>
          rw [hrest] at h
          injection h with h
          subst h
          cases j with
          | zero =>
            have hed : e = d := by
              have : (e :: es).get? 0 = some e := rfl
              rw [this] at hd; injection hd
            subst hed
            refine ⟨x, xs', a, as', hinp, hattr, ?_, ?_⟩
            · rw [Nat.add_zero]; exact List.mem_cons_self ..
            · rw [Nat.add_zero]; exact List.mem_cons_of_mem _ (List.mem_cons_self ..)
          | succ j' =>
            have hd' : es.get? j' = some d := hd
            obtain ⟨x2, xs2, a2, as2, h1, h2, h3, h4⟩ := ih (k0 + 1) r hrest j' d hd'
            have harith : k0 + (j' + 1) = k0 + 1 + j' := by omega
            refine ⟨x2, xs2, a2, as2, h1, h2, ?_, ?_⟩
            · rw [harith]
              exact List.mem_cons_of_mem _ (List.mem_cons_of_mem _ h3)
            · rw [harith]
              exact List.mem_cons_of_mem _ (List.mem_cons_of_mem _ h4)

theorem dropPairs_ops : ∀ (ds : List Node) (k0 : Nat) (pairs : List Node),
    dropPairs k0 ds = some pairs → ∀ n ∈ pairs, ¬ n.op_type = "Dropout" := by
  intro ds
  induction ds with
  | nil =>
    intro k0 pairs h n hn
    rw [dropPairs] at h
    injection h with h
    subst h
    cases hn
  | cons e es ih =>
    intro k0 pairs h n hn
    cases hinp : e.input with
    | nil => rw [dropPairs, hinp] at h; exact Option.noConfusion h
    | cons x xs' =>
      cases hattr : e.attrs with
      | nil => rw [dropPairs, hinp, hattr] at h; exact Option.noConfusion h
      | cons a as' =>
        rw [dropPairs, hinp, hattr] at h
        cases hrest : dropPairs (k0 + 1) es with
        | none => rw [hrest] at h; exact Option.noConfusion h
        | some r =>
          rw [hrest] at h
          injection h with h
          subst h
          rcases List.mem_cons.mp hn with rfl | hn'
          · intro hcon; simp [mkTrainable] at hcon
          rcases List.mem_cons.mp hn' with rfl | hn''
          · intro hcon; simp [mkRatioNode, constNodeT] at hcon
          · exact ih (k0 + 1) r hrest n hn''

theorem noDupDropouts_of_nodup_names (ns : List Node)
    (h : (ns.map Node.name).Nodup) : NoDupDropouts ns := by
  intro p q hpq dq hq _ dp hp heq
  obtain ⟨hlp, hdp⟩ := List.get?_eq_some.mp hp
  obtain ⟨hlq, hdq⟩ := List.get?_eq_some.mp hq
  have hmap : (ns.map Node.name).get ⟨p, by simpa using hlp⟩
      = (ns.map Node.name).get ⟨q, by simpa using hlq⟩ := by
    rw [List.get_map, List.get_map, hdp, hdq, heq]
  have hfin := (List.Nodup.get_inj_iff h).mp hmap
  have : p = q := congrArg Fin.val hfin
  omega

/-- Claim C4: on any graph whose node names are pairwise distinct (the state
`add_name` establishes; with duplicated value-equal Dropout nodes the
position lookup misfires), a successful `process_dropout` leaves no Dropout
node, and for the k-th Dropout (zero-based, encounter order) with ratio
attribute r and output list O the graph contains a TrainableDropout node
named `TrainableDropout_<k>` whose output list is O verbatim and whose inputs
are the Dropout's first input followed by the output of the new Constant
`dropout_node_ratio_<k>` carrying a single-element 32-bit float tensor
holding r. -/
theorem claim_C4_dropout (m m' : Model)
    (hnames : (m.graph.node.map Node.name).Nodup)
    (hrun : process_dropout m = some m') :
    (∀ n ∈ m'.graph.node, ¬ n.op_type = "Dropout") ∧
    (∀ k (hk : k < (dropoutsOf m.graph.node).length),
      ∃ x xs a as,
        ((dropoutsOf m.graph.node).get ⟨k, hk⟩).input = x :: xs ∧
        ((dropoutsOf m.graph.node).get ⟨k, hk⟩).attrs = a :: as ∧
        (⟨"TrainableDropout", "TrainableDropout_" ++ natStr k,
          [x, "dropout_node_ratio_" ++ natStr k],
          ((dropoutsOf m.graph.node).get ⟨k, hk⟩).output, []⟩ : Node) ∈ m'.graph.node ∧
        (⟨"Constant", "dropout_node_ratio_" ++ natStr k, [],
          ["dropout_node_ratio_" ++ natStr k],
          [⟨"value", 4, [], ⟨0⟩, some ⟨"", [1], .f32 [a.f]⟩⟩]⟩ : Node) ∈ m'.graph.node) := by
  have hspec := dropLoop_spec (m.graph.node.length + 2 * countDropout m.graph.node + 1)
    m.graph.node 0 0 []
    (by
      rw [List.drop_zero]
      unfold countDropout dropoutsOf
      omega)
    (noDupDropouts_of_nodup_names _ hnames)
  rw [List.drop_zero] at hspec
  unfold process_dropout at hrun
  rw [hspec] at hrun
  cases hpairs : dropPairs 0 (dropoutsOf m.graph.node) with
  | none => rw [hpairs] at hrun; exact Option.noConfusion hrun
  | some pairs =>
    rw [hpairs] at hrun
    simp only [List.nil_append] at hrun
    have hinc := dropPos_increasing m.graph.node 0
    have hnodupP : (dropPos 0 m.graph.node).Nodup :=
      hinc.imp (fun hab => by omega)
    have hboundP : ∀ p ∈ dropPos 0 m.graph.node, p < (m.graph.node ++ pairs).length := by
      intro p hp
      have := dropPos_lt m.graph.node 0 p hp
      rw [List.length_append]
      omega
    have hsortPerm := sortDesc_perm (dropPos 0 m.graph.node)
    have hgt := pairwise_gt_of_ge_nodup _ (sortDesc_sorted _)
      (hsortPerm.nodup_iff.mpr hnodupP)
    have hdel := delMany_desc (sortDesc (dropPos 0 m.graph.node)) (m.graph.node ++ pairs)
      hgt (fun q hq => hboundP q (hsortPerm.subset hq))
    rw [hdel] at hrun
    have hrm1 : removeIdxs (m.graph.node ++ pairs) (sortDesc (dropPos 0 m.graph.node))
        = removeIdxs (m.graph.node ++ pairs) (dropPos 0 m.graph.node) :=
      rmGo_congr _ _ (fun x => hsortPerm.mem_iff) _ 0
    have hrm2 : removeIdxs (m.graph.node ++ pairs) (dropPos 0 m.graph.node)
        = removeIdxs m.graph.node (dropPos 0 m.graph.node) ++ pairs :=
      rmGo_append_beyond m.graph.node pairs 0 _
        (fun q hq => by have := dropPos_lt m.graph.node 0 q hq; omega)
    have hrm3 : removeIdxs m.graph.node (dropPos 0 m.graph.node)
        = m.graph.node.filter (fun n => ¬ n.op_type = "Dropout") :=
      rmGo_dropPos m.graph.node 0
    rw [hrm1, hrm2, hrm3] at hrun
    injection hrun with hrun
    subst hrun
    constructor
    · intro n hn
      rcases List.mem_append.mp hn with hfil | hpair
      · have := (List.mem_filter.mp hfil).2
        simpa using this
      · exact dropPairs_ops _ _ _ hpairs n hpair
    · intro kk hk
      have hgetk : (dropoutsOf m.graph.node).get? kk
          = some ((dropoutsOf m.graph.node).get ⟨kk, hk⟩) := List.get?_eq_get hk
      obtain ⟨x, xs, a, as, h1, h2, h3, h4⟩ := dropPairs_mem _ _ _ hpairs kk _ hgetk
      rw [Nat.zero_add] at h3 h4
      exact ⟨x, xs, a, as, h1, h2,
        List.mem_append.mpr (Or.inr h3),
        List.mem_append.mpr (Or.inr h4)⟩

/-- Witness for C4 on a one-Dropout model with ratio bit pattern 42. -/
theorem claim_C4_witness :
    (∀ n ∈ (⟨⟨[⟨"TrainableDropout", "TrainableDropout_0",
        ["x", "dropout_node_ratio_0"], ["y"], []⟩,
        ⟨"Constant", "dropout_node_ratio_0", [], ["dropout_node_ratio_0"],
         [⟨"value", 4, [], ⟨0⟩, some ⟨"", [1], .f32 [⟨42⟩]⟩⟩]⟩], [], []⟩,
      [⟨"", 9⟩]⟩ : Model).graph.node, ¬ n.op_type = "Dropout") ∧
    (∀ k (hk : k < (dropoutsOf mC4w.graph.node).length),
      ∃ x xs a as,
        ((dropoutsOf mC4w.graph.node).get ⟨k, hk⟩).input = x :: xs ∧
        ((dropoutsOf mC4w.graph.node).get ⟨k, hk⟩).attrs = a :: as ∧
        (⟨"TrainableDropout", "TrainableDropout_" ++ natStr k,
          [x, "dropout_node_ratio_" ++ natStr k],
          ((dropoutsOf mC4w.graph.node).get ⟨k, hk⟩).output, []⟩ : Node) ∈
            (⟨⟨[⟨"TrainableDropout", "TrainableDropout_0",
              ["x", "dropout_node_ratio_0"], ["y"], []⟩,
              ⟨"Constant", "dropout_node_ratio_0", [], ["dropout_node_ratio_0"],
               [⟨"value", 4, [], ⟨0⟩, some ⟨"", [1], .f32 [⟨42⟩]⟩⟩]⟩], [], []⟩,
            [⟨"", 9⟩]⟩ : Model).graph.node ∧
        (⟨"Constant", "dropout_node_ratio_" ++ natStr k, [],
          ["dropout_node_ratio_" ++ natStr k],
          [⟨"value", 4, [], ⟨0⟩, some ⟨"", [1], .f32 [a.f]⟩⟩]⟩ : Node) ∈
            (⟨⟨[⟨"TrainableDropout", "TrainableDropout_0",
              ["x", "dropout_node_ratio_0"], ["y"], []⟩,
              ⟨"Constant", "dropout_node_ratio_0", [], ["dropout_node_ratio_0"],
               [⟨"value", 4, [], ⟨0⟩, some ⟨"", [1], .f32 [⟨42⟩]⟩⟩]⟩], [], []⟩,
            [⟨"", 9⟩]⟩ : Model).graph.node) :=
  claim_C4_dropout mC4w _ (by decide) rfl

end GPT2Transformer
